import Mathlib

/-
Verification of the directory-tree renderer `tree.py` against its design
specification.

The filesystem is shallowly embedded as a snapshot: an `Entry` is either a
plain file or a directory together with the ordered listing that
`os.listdir` would return for it.  The traversal functions of the script
(`print_tree`, `print_directory`) are translated into pure functions from
such snapshots to the list of printed lines; the ambient working directory
of the process is passed explicitly as the string
`os.path.basename(os.getcwd())` would produce.
-/

/-- A snapshot of one filesystem entry: a plain file, or a directory with
the ordered listing `os.listdir` would return for it. -/
inductive Entry where
  | file (nm : String)
  | dir (nm : String) (children : List Entry)

/-- Name of the entry as it appears in the listing of its parent. -/
def Entry.name : Entry → String
  | .file nm => nm
  | .dir nm _ => nm

/-- Value of `os.path.isdir` on the full path of the entry. -/
def Entry.isDir : Entry → Bool
  | .file _ => false
  | .dir _ _ => true

/-- One printed line of `print_directory`, split into the four parts the
source concatenates (tree.py lines 141-146): indentation, connector,
entry name, and the `/` marker for directories. -/
structure TreeLine where
  pfx : String
  connector : String
  name : String
  suffix : String
deriving DecidableEq

/-- The string actually printed for a line (tree.py lines 141-146). -/
def TreeLine.render (l : TreeLine) : String :=
  l.pfx ++ l.connector ++ l.name ++ l.suffix

/-- Embedding of the startswith dot test of tree.py line 130: the first
character of the name is a dot (false on the empty string, as in
Python). -/
def startsWithDot (s : String) : Bool :=
  match s.data with
  | [] => false
  | c :: _ => c == '.'

/-- The dot-file filter of `print_directory` (tree.py lines 128-130):
when `include_dotfiles` is false, names starting with `.` are removed. -/
def hiddenFilter (include_dotfiles : Bool) (items : List Entry) : List Entry :=
  if include_dotfiles then items
  else items.filter (fun item => !(startsWithDot item.name))

theorem sizeOf_filter_le (p : Entry → Bool) (l : List Entry) :
    sizeOf (List.filter p l) ≤ sizeOf l := by
  induction l with
  | nil => simp [List.filter]
  | cons x xs ih =>
    simp only [List.filter]
    cases p x with
    | true => simp; omega
    | false => simp; omega

theorem sizeOf_hiddenFilter_le (b : Bool) (l : List Entry) :
    sizeOf (hiddenFilter b l) ≤ sizeOf l := by
  cases b <;> simp [hiddenFilter, sizeOf_filter_le]

theorem one_le_sizeOf_list (l : List Entry) : 1 ≤ sizeOf l := by
  cases l with
  | nil => simp
  | cons x xs => simp; omega

mutual

/-- Embedding of `print_directory` (tree.py lines 100-157).  `children` is
the listing of the directory being printed, `pfx` the indentation built so
far, and the remaining arguments are as in the source.  The depth cutoff
(lines 122-124) is checked before the listing is consulted. -/
def print_directory (children : List Entry) (pfx : String)
    (include_dotfiles : Bool) (max_depth : Int) (current_depth : Nat) :
    List TreeLine :=
  if (current_depth : Int) > max_depth then []
  else
    let items := hiddenFilter include_dotfiles children
    loopItems items items.length 0 pfx include_dotfiles max_depth current_depth
termination_by sizeOf children + 1
decreasing_by
  have := sizeOf_hiddenFilter_le include_dotfiles children
  omega

/-- The `for index, item in enumerate(items)` loop of `print_directory`
(tree.py lines 134-157): `count` is `len(items)` of the already filtered
listing and `idx` the index of the first remaining item.  Each item yields
its own line followed by the lines of its subtree. -/
def loopItems : List Entry → Nat → Nat → String → Bool → Int → Nat →
    List TreeLine
  | [], _, _, _, _, _, _ => []
  | item :: rest, count, idx, pfx, include_dotfiles, max_depth,
      current_depth =>
    let is_last := idx == count - 1
    ⟨pfx, if is_last then "└── " else "├── ", item.name,
      if item.isDir then "/" else ""⟩ ::
      (childLines item is_last pfx include_dotfiles max_depth current_depth ++
       loopItems rest count (idx + 1) pfx include_dotfiles max_depth
         current_depth)
termination_by items _ _ _ _ _ _ => sizeOf items
decreasing_by
  all_goals (have hrest := one_le_sizeOf_list rest; simp; try omega)

/-- Lines 148-157 of tree.py: a file contributes no subtree, a directory
is recursed into with the extended indentation and incremented depth. -/
def childLines : Entry → Bool → String → Bool → Int → Nat → List TreeLine
  | Entry.file _, _, _, _, _, _ => []
  | Entry.dir _ cs, is_last, pfx, include_dotfiles, max_depth,
      current_depth =>
    print_directory cs (pfx ++ (if is_last then "    " else "│   "))
      include_dotfiles max_depth (current_depth + 1)
termination_by item _ _ _ _ _ => sizeOf item + 1
decreasing_by
  simp
  try omega

end

/-- Embedding of `print_tree` (tree.py lines 75-98): `cwdBase` models
`os.path.basename(os.getcwd())` (ambient process state, passed
explicitly), `children` the listing of the `directory` argument.  The
header line is the working-directory base name, not the traversed root. -/
def print_tree (cwdBase : String) (children : List Entry) (pfx : String)
    (include_dotfiles : Bool) (max_depth : Int) : List String :=
  (cwdBase ++ "/") ::
    (print_directory children pfx include_dotfiles max_depth 0).map
      TreeLine.render

/-- Scenario A of the specification: files `a.txt`, `b.txt` and a
subdirectory `sub` containing `c.txt`, listed in that order. -/
def scenA : List Entry :=
  [Entry.file "a.txt", Entry.file "b.txt", Entry.dir "sub" [Entry.file "c.txt"]]

/- ### Generic helper lemmas about the traversal -/

/-- A call entered with `current_depth > max_depth` returns before listing
anything (tree.py lines 122-124). -/
theorem print_directory_eq_nil_of_gt {max_depth : Int} {current_depth : Nat}
    (children : List Entry) (pfx : String) (include_dotfiles : Bool)
    (h : (current_depth : Int) > max_depth) :
    print_directory children pfx include_dotfiles max_depth current_depth = [] := by
  rw [print_directory]
  simp [h]

/-- A call entered within the depth budget proceeds to the loop over the
filtered listing. -/
theorem print_directory_eq_loop {max_depth : Int} {current_depth : Nat}
    (children : List Entry) (pfx : String) (include_dotfiles : Bool)
    (h : (current_depth : Int) ≤ max_depth) :
    print_directory children pfx include_dotfiles max_depth current_depth =
      loopItems (hiddenFilter include_dotfiles children)
        (hiddenFilter include_dotfiles children).length 0 pfx
        include_dotfiles max_depth current_depth := by
  rw [print_directory]
  simp [not_lt.mpr h]

/-- With the depth budget exactly used up, every item contributes exactly
its own line: the loop output has one line per item. -/
theorem loopItems_length_at_max {max_depth : Int} {current_depth : Nat}
    (items : List Entry) (count idx : Nat) (pfx : String)
    (include_dotfiles : Bool) (h : (current_depth : Int) = max_depth) :
    (loopItems items count idx pfx include_dotfiles max_depth
        current_depth).length = items.length := by
  induction items generalizing idx with
  | nil => simp [loopItems]
  | cons item rest ih =>
    rw [loopItems]
    have hsub : childLines item (idx == count - 1) pfx include_dotfiles
        max_depth current_depth = [] := by
      cases item with
      | file nm => rw [childLines]
      | dir nm cs =>
        rw [childLines]
        exact print_directory_eq_nil_of_gt _ _ _ (by omega)
    simp [hsub, ih (idx + 1)]

/-- Every item of the loop list yields a line carrying its name, its
directory marker, and the indentation of the loop. -/
theorem loopItems_mem_line {max_depth : Int} {current_depth : Nat}
    {items : List Entry} {e : Entry} (he : e ∈ items) (count idx : Nat)
    (pfx : String) (include_dotfiles : Bool) :
    ∃ l ∈ loopItems items count idx pfx include_dotfiles max_depth
        current_depth,
      l.name = e.name ∧ l.suffix = (if e.isDir then "/" else "") ∧
        l.pfx = pfx := by
  induction items generalizing idx with
  | nil => cases he
  | cons item rest ih =>
    rw [loopItems]
    rcases List.mem_cons.mp he with rfl | hrest
    · exact ⟨_, List.mem_cons_self _ _, rfl, rfl, rfl⟩
    · obtain ⟨l, hl, hprops⟩ := ih hrest (idx + 1)
      exact ⟨l, List.mem_cons_of_mem _ (List.mem_append_right _ hl), hprops⟩

/-- The subtree lines of a directory item of the loop list are included
in the loop output (for the indentation the loop hands to the recursive
call). -/
theorem loopItems_sub_incl {max_depth : Int} {current_depth : Nat}
    {items : List Entry} {nm : String} {cs : List Entry}
    (he : Entry.dir nm cs ∈ items) (count idx : Nat) (pfx : String)
    (include_dotfiles : Bool) :
    ∃ q, ∀ x ∈ print_directory cs q include_dotfiles max_depth
        (current_depth + 1),
      x ∈ loopItems items count idx pfx include_dotfiles max_depth
        current_depth := by
  induction items generalizing idx with
  | nil => cases he
  | cons item rest ih =>
    rcases List.mem_cons.mp he with rfl | hrest
    · refine ⟨pfx ++ (if (idx == count - 1) then "    " else "│   "),
        fun x hx => ?_⟩
      rw [loopItems]
      apply List.mem_cons_of_mem
      apply List.mem_append_left
      rw [childLines]
      exact hx
    · obtain ⟨q, hq⟩ := ih hrest (idx + 1)
      refine ⟨q, fun x hx => ?_⟩
      rw [loopItems]
      exact List.mem_cons_of_mem _ (List.mem_append_right _ (hq x hx))

/-- Membership in the filtered listing implies membership in the raw
listing. -/
theorem mem_of_hiddenFilter {include_dotfiles : Bool} {l : List Entry}
    {a : Entry} (h : a ∈ hiddenFilter include_dotfiles l) : a ∈ l := by
  cases include_dotfiles with
  | false =>
    have h2 : a ∈ l ∧ startsWithDot a.name = false := by
      simpa [hiddenFilter] using h
    exact h2.1
  | true => simpa [hiddenFilter] using h

/- ### Claims C6, C9, C4, C2, C1 -/

/-- C6: the first line of the output of `print_tree` is the base name of the
current working directory followed by `/`, whatever root listing is being
traversed and whatever the options are. -/
theorem c6_header_is_cwd_basename (cwdBase : String) (children : List Entry)
    (pfx : String) (include_dotfiles : Bool) (max_depth : Int) :
    (print_tree cwdBase children pfx include_dotfiles max_depth).head? =
      some (cwdBase ++ "/") := rfl

/-- C9: for every negative `max_depth`, `print_tree` emits exactly the
working-directory header line, because `current_depth > max_depth` already
holds at the initial depth 0. -/
theorem c9_negative_max_depth_only_header (cwdBase : String)
    (children : List Entry) (pfx : String) (include_dotfiles : Bool)
    {max_depth : Int} (h : max_depth < 0) :
    print_tree cwdBase children pfx include_dotfiles max_depth =
      [cwdBase ++ "/"] := by
  unfold print_tree
  rw [print_directory_eq_nil_of_gt children pfx include_dotfiles (by omega)]
  rfl

/-- C9 witness: at `max_depth = -1` the output is the bare header. -/
theorem c9_negative_max_depth_only_header_witness :
    print_tree "base" scenA "" false (-1) = ["base" ++ "/"] :=
  c9_negative_max_depth_only_header "base" scenA "" false (by decide)

/-- C4: on the Scenario A tree (files `a.txt`, `b.txt`, directory `sub`
containing `c.txt`, listed in that order), hidden entries excluded and
default depth 10, the rendered output is exactly the header plus the four
expected lines; the recursion under the last entry `sub` extends the
indentation with four spaces. -/
theorem c4_scenario_a_exact_output (cwdBase : String) :
    print_tree cwdBase scenA "" false 10 =
      [cwdBase ++ "/", "├── a.txt", "├── b.txt", "└── sub/",
        "    └── c.txt"] := by
  simp +decide [print_tree, print_directory, loopItems, childLines, hiddenFilter, scenA]

/-- C2: the depth cutoff is checked before the contents of a directory are
listed: a call entered at `current_depth > max_depth` yields no output at
all, a call entered at `current_depth = max_depth` still yields exactly
one line per (filtered) item, and on the Scenario A tree with
`max_depth = 0` the file `c.txt` inside `sub` is never printed while
`sub/` itself still appears. -/
theorem c2_depth_boundary_semantics :
    (∀ (children : List Entry) (pfx : String) (include_dotfiles : Bool)
        (max_depth : Int) (current_depth : Nat),
        (current_depth : Int) > max_depth →
        print_directory children pfx include_dotfiles max_depth
          current_depth = []) ∧
    (∀ (children : List Entry) (pfx : String) (include_dotfiles : Bool)
        (max_depth : Int) (current_depth : Nat),
        (current_depth : Int) = max_depth →
        (print_directory children pfx include_dotfiles max_depth
            current_depth).length =
          (hiddenFilter include_dotfiles children).length) ∧
    print_tree "work" scenA "" false 0 =
      ["work/", "├── a.txt", "├── b.txt", "└── sub/"] := by
  refine ⟨?_, ?_, ?_⟩
  · intro children pfx include_dotfiles max_depth current_depth h
    exact print_directory_eq_nil_of_gt children pfx include_dotfiles h
  · intro children pfx include_dotfiles max_depth current_depth h
    rw [print_directory_eq_loop children pfx include_dotfiles (le_of_eq h)]
    exact loopItems_length_at_max _ _ 0 pfx include_dotfiles h
  · simp +decide [print_tree, print_directory, loopItems, childLines, hiddenFilter, scenA]

/-- C2 witness: concrete instances of the two quantified conjuncts: a call
at depth 1 with `max_depth = 0` prints nothing, and a call at depth
`max_depth` prints one line per item. -/
theorem c2_depth_boundary_semantics_witness :
    print_directory scenA "" false 0 1 = [] ∧
    (print_directory scenA "" false 0 0).length =
      (hiddenFilter false scenA).length :=
  ⟨c2_depth_boundary_semantics.1 scenA "" false 0 1 (by decide),
   c2_depth_boundary_semantics.2.1 scenA "" false 0 0 (by decide)⟩

/-- C1 counterexample: with `max_depth = 1`, the child `c.txt` of the
direct-child subdirectory `sub` DOES produce an output line, contradicting
the claim that no child of a direct child is printed. -/
theorem c1_counterexample :
    print_tree "work" scenA "" false 1 =
      ["work/", "├── a.txt", "├── b.txt", "└── sub/", "    └── c.txt"] := by
  simp +decide [print_tree, print_directory, loopItems, childLines, hiddenFilter, scenA]

/-- C1 (amended): with `max_depth = 1`, a subdirectory that is a child of
a direct child of the root (a grandchild of the root) is listed with its
own entry line, but no child of that subdirectory produces any
output, because the recursive call into it is entered at depth 2. -/
theorem c1_amended_grandchild_boundary :
    (∀ (children cs gcs : List Entry) (dn gn : String)
        (include_dotfiles : Bool),
        Entry.dir dn cs ∈ hiddenFilter include_dotfiles children →
        Entry.dir gn gcs ∈ hiddenFilter include_dotfiles cs →
        ∃ l ∈ print_directory children "" include_dotfiles 1 0,
          l.name = gn ∧ l.suffix = "/") ∧
    (∀ (gcs : List Entry) (pfx : String) (include_dotfiles : Bool),
        print_directory gcs pfx include_dotfiles 1 2 = []) := by
  constructor
  · intro children cs gcs dn gn include_dotfiles hd hg
    rw [print_directory_eq_loop children "" include_dotfiles (by decide)]
    obtain ⟨q, hq⟩ := loopItems_sub_incl hd
      (hiddenFilter include_dotfiles children).length 0 ""
      include_dotfiles
    obtain ⟨l, hl, hname, hsuffix, -⟩ := loopItems_mem_line hg
      (hiddenFilter include_dotfiles cs).length 0 q include_dotfiles
    refine ⟨l, hq l ?_, hname, by simpa [Entry.isDir] using hsuffix⟩
    rw [print_directory_eq_loop cs q include_dotfiles (by decide)]
    exact hl
  · intro gcs pfx include_dotfiles
    exact print_directory_eq_nil_of_gt gcs pfx include_dotfiles (by decide)

/-- C1 witness: on Scenario A nested one level deeper, the grandchild
directory `sub` is listed and a call at depth 2 prints nothing. -/
theorem c1_amended_grandchild_boundary_witness :
    (∃ l ∈ print_directory [Entry.dir "mid" scenA] "" false 1 0,
      l.name = "sub" ∧ l.suffix = "/") ∧
    print_directory [Entry.file "c.txt"] "" false 1 2 = [] :=
  ⟨c1_amended_grandchild_boundary.1 [Entry.dir "mid" scenA] scenA
      [Entry.file "c.txt"] "mid" "sub" false
      (by simp +decide [hiddenFilter])
      (by simp +decide [hiddenFilter, scenA]),
   c1_amended_grandchild_boundary.2 [Entry.file "c.txt"] "" false⟩

/- ### Spec-side vocabulary: entry depth and indentation blocks -/

/-- Relation stating that entry `e` sits `d` directory levels below the
root whose listing is `children` (the immediate children of the root are
at depth 0). -/
inductive EntryAt : List Entry → Nat → Entry → Prop where
  | here {children : List Entry} {e : Entry} (h : e ∈ children) :
      EntryAt children 0 e
  | deeper {children cs : List Entry} {nm : String} {d : Nat} {e : Entry}
      (hmem : Entry.dir nm cs ∈ children) (hin : EntryAt cs d e) :
      EntryAt children (d + 1) e

theorem EntryAt.cons {x : Entry} {l : List Entry} {d : Nat} {e : Entry}
    (h : EntryAt l d e) : EntryAt (x :: l) d e := by
  cases h with
  | here h => exact .here (List.mem_cons_of_mem _ h)
  | deeper hmem hin => exact .deeper (List.mem_cons_of_mem _ hmem) hin

theorem EntryAt.of_hiddenFilter {inc : Bool} {l : List Entry} {d : Nat}
    {e : Entry} (h : EntryAt (hiddenFilter inc l) d e) : EntryAt l d e := by
  cases h with
  | here h => exact .here (mem_of_hiddenFilter h)
  | deeper hmem hin => exact .deeper (mem_of_hiddenFilter hmem) hin

/-- Concatenation of a list of indentation blocks. -/
def joinBlocks : List String → String
  | [] => ""
  | b :: bs => b ++ joinBlocks bs

theorem joinBlocks_length {blocks : List String}
    (hok : ∀ b ∈ blocks, b = "    " ∨ b = "│   ") :
    (joinBlocks blocks).length = 4 * blocks.length := by
  induction blocks with
  | nil => rfl
  | cons b bs ih =>
    have hb : b.length = 4 := by
      rcases hok b (List.mem_cons_self _ _) with rfl | rfl <;> rfl
    have hbs := ih (fun x hx => hok x (List.mem_cons_of_mem _ hx))
    simp only [joinBlocks, String.length_append, hb, hbs, List.length_cons]
    ring

/-- Entries surviving the filter with hidden files excluded have
non-dotted names. -/
theorem hiddenFilter_false_dot_free {l : List Entry} {e : Entry}
    (h : e ∈ hiddenFilter false l) : startsWithDot e.name = false := by
  have h2 : e ∈ l ∧ startsWithDot e.name = false := by
    simpa [hiddenFilter] using h
  exact h2.2

/- ### The hidden-entry filter acts at every level (towards C3) -/

/-- With hidden entries excluded, no emitted line carries a dotted name. -/
theorem print_directory_no_dotted :
    ∀ (children : List Entry) (pfx : String) (inc : Bool) (maxd : Int)
      (curd : Nat), inc = false →
      ∀ l ∈ print_directory children pfx inc maxd curd,
        startsWithDot l.name = false := by
  refine print_directory.induct
    (fun children pfx inc maxd curd => inc = false →
      ∀ l ∈ print_directory children pfx inc maxd curd,
        startsWithDot l.name = false)
    (fun items count idx pfx inc maxd curd => inc = false →
      (∀ e ∈ items, startsWithDot e.name = false) →
      ∀ l ∈ loopItems items count idx pfx inc maxd curd,
        startsWithDot l.name = false)
    (fun item b pfx inc maxd curd => inc = false →
      ∀ l ∈ childLines item b pfx inc maxd curd,
        startsWithDot l.name = false)
    ?_ ?_ ?_ ?_ ?_ ?_
  · intro children pfx inc maxd curd hgt hinc l hl
    rw [print_directory_eq_nil_of_gt _ _ _ hgt] at hl
    cases hl
  · intro children pfx inc maxd curd hgt items ih hinc l hl
    rw [print_directory_eq_loop _ _ _ (not_lt.mp hgt)] at hl
    subst hinc
    exact ih rfl (fun e he => hiddenFilter_false_dot_free he) l hl
  · intro count idx pfx inc maxd curd hinc hfree l hl
    simp [loopItems] at hl
  · intro item rest count idx pfx inc maxd curd is_last ih3 ih2 hinc hfree l hl
    rw [loopItems] at hl
    rcases List.mem_cons.mp hl with rfl | hl2
    · exact hfree item (List.mem_cons_self _ _)
    · rcases List.mem_append.mp hl2 with h3 | h4
      · exact ih3 hinc l h3
      · exact ih2 hinc (fun e he => hfree e (List.mem_cons_of_mem _ he)) l h4
  · intro nm b pfx inc maxd curd hinc l hl
    simp [childLines] at hl
  · intro nm cs is_last pfx inc maxd curd ih1 hinc l hl
    rw [childLines] at hl
    exact ih1 hinc l hl

/- ### Indentation growth (towards C5 and C10) -/

/-- Every line of a call carries at least the indentation of the call. -/
theorem print_directory_pfx_le :
    ∀ (children : List Entry) (pfx : String) (inc : Bool) (maxd : Int)
      (curd : Nat),
      ∀ l ∈ print_directory children pfx inc maxd curd,
        pfx.length ≤ l.pfx.length := by
  refine print_directory.induct
    (fun children pfx inc maxd curd =>
      ∀ l ∈ print_directory children pfx inc maxd curd,
        pfx.length ≤ l.pfx.length)
    (fun items count idx pfx inc maxd curd =>
      ∀ l ∈ loopItems items count idx pfx inc maxd curd,
        pfx.length ≤ l.pfx.length)
    (fun item b pfx inc maxd curd =>
      ∀ l ∈ childLines item b pfx inc maxd curd,
        pfx.length ≤ l.pfx.length)
    ?_ ?_ ?_ ?_ ?_ ?_
  · intro children pfx inc maxd curd hgt l hl
    rw [print_directory_eq_nil_of_gt _ _ _ hgt] at hl
    cases hl
  · intro children pfx inc maxd curd hgt items ih l hl
    rw [print_directory_eq_loop _ _ _ (not_lt.mp hgt)] at hl
    exact ih l hl
  · intro count idx pfx inc maxd curd l hl
    simp [loopItems] at hl
  · intro item rest count idx pfx inc maxd curd is_last ih3 ih2 l hl
    rw [loopItems] at hl
    rcases List.mem_cons.mp hl with rfl | hl2
    · exact le_refl _
    · rcases List.mem_append.mp hl2 with h3 | h4
      · exact ih3 l h3
      · exact ih2 l h4
  · intro nm b pfx inc maxd curd l hl
    simp [childLines] at hl
  · intro nm cs is_last pfx inc maxd curd ih1 l hl
    rw [childLines] at hl
    have := ih1 l hl
    rw [String.length_append] at this
    omega

/-- Subtree lines of a single item are indented at least four characters
beyond the indentation of the enclosing loop. -/
theorem childLines_pfx_ge {item : Entry} {b : Bool} {pfx : String}
    {inc : Bool} {maxd : Int} {curd : Nat} :
    ∀ l ∈ childLines item b pfx inc maxd curd,
      pfx.length + 4 ≤ l.pfx.length := by
  cases item with
  | file nm =>
    intro l hl
    rw [childLines] at hl
    cases hl
  | dir nm cs =>
    intro l hl
    rw [childLines] at hl
    have h := print_directory_pfx_le cs
      (pfx ++ (if b then "    " else "│   ")) inc maxd (curd + 1) l hl
    rw [String.length_append] at h
    have h4 : (if b then "    " else "│   ").length = 4 := by
      cases b <;> rfl
    omega

/-- The indentation of every emitted line extends the indentation of the
call by one four-character block (`"    "` or `"│   "`) per level of
nesting, and the line carries the name of an entry at that nesting
depth. -/
theorem print_directory_blocks :
    ∀ (children : List Entry) (pfx : String) (inc : Bool) (maxd : Int)
      (curd : Nat),
      ∀ l ∈ print_directory children pfx inc maxd curd,
        ∃ d e blocks, EntryAt children d e ∧ l.name = Entry.name e ∧
          List.length blocks = d ∧
          (∀ b ∈ blocks, b = "    " ∨ b = "│   ") ∧
          l.pfx = pfx ++ joinBlocks blocks := by
  refine print_directory.induct
    (fun children pfx inc maxd curd =>
      ∀ l ∈ print_directory children pfx inc maxd curd,
        ∃ d e blocks, EntryAt children d e ∧ l.name = Entry.name e ∧
          List.length blocks = d ∧
          (∀ b ∈ blocks, b = "    " ∨ b = "│   ") ∧
          l.pfx = pfx ++ joinBlocks blocks)
    (fun items count idx pfx inc maxd curd =>
      ∀ l ∈ loopItems items count idx pfx inc maxd curd,
        ∃ d e blocks, EntryAt items d e ∧ l.name = Entry.name e ∧
          List.length blocks = d ∧
          (∀ b ∈ blocks, b = "    " ∨ b = "│   ") ∧
          l.pfx = pfx ++ joinBlocks blocks)
    (fun item b pfx inc maxd curd =>
      ∀ l ∈ childLines item b pfx inc maxd curd,
        ∃ d e blocks nm cs, item = Entry.dir nm cs ∧ EntryAt cs d e ∧
          l.name = Entry.name e ∧ List.length blocks = d + 1 ∧
          (∀ b2 ∈ blocks, b2 = "    " ∨ b2 = "│   ") ∧
          l.pfx = pfx ++ joinBlocks blocks)
    ?_ ?_ ?_ ?_ ?_ ?_
  · intro children pfx inc maxd curd hgt l hl
    rw [print_directory_eq_nil_of_gt _ _ _ hgt] at hl
    cases hl
  · intro children pfx inc maxd curd hgt items ih l hl
    rw [print_directory_eq_loop _ _ _ (not_lt.mp hgt)] at hl
    obtain ⟨d, e, blocks, hat, hname, hlen, hok, hpfx⟩ := ih l hl
    exact ⟨d, e, blocks, hat.of_hiddenFilter, hname, hlen, hok, hpfx⟩
  · intro count idx pfx inc maxd curd l hl
    simp [loopItems] at hl
  · intro item rest count idx pfx inc maxd curd is_last ih3 ih2 l hl
    rw [loopItems] at hl
    rcases List.mem_cons.mp hl with rfl | hl2
    · refine ⟨0, item, [], .here (List.mem_cons_self _ _), rfl, rfl,
        by simp, ?_⟩
      show pfx = pfx ++ joinBlocks []
      rw [show joinBlocks [] = "" from rfl, String.append_empty]
    · rcases List.mem_append.mp hl2 with h3 | h4
      · obtain ⟨d, e, blocks, nm, cs, hitem, hat, hname, hlen, hok, hpfx⟩ :=
          ih3 l h3
        refine ⟨d + 1, e, blocks, ?_, hname, hlen, hok, hpfx⟩
        have hmem2 : Entry.dir nm cs ∈ item :: rest := by
          rw [hitem]
          exact List.mem_cons_self _ _
        exact EntryAt.deeper hmem2 hat
      · obtain ⟨d, e, blocks, hat, hname, hlen, hok, hpfx⟩ := ih2 l h4
        exact ⟨d, e, blocks, hat.cons, hname, hlen, hok, hpfx⟩
  · intro nm b pfx inc maxd curd l hl
    simp [childLines] at hl
  · intro nm cs is_last pfx inc maxd curd ih1 l hl
    rw [childLines] at hl
    obtain ⟨d, e, blocks, hat, hname, hlen, hok, hpfx⟩ := ih1 l hl
    refine ⟨d, e, (if is_last then "    " else "│   ") :: blocks, nm, cs,
      rfl, hat, hname, by simp [hlen], ?_, ?_⟩
    · intro b2 hb2
      rcases List.mem_cons.mp hb2 with rfl | hb3
      · cases is_last <;> simp
      · exact hok b2 hb3
    · rw [hpfx, show joinBlocks ((if is_last then "    " else "│   ") ::
        blocks) = (if is_last then "    " else "│   ") ++ joinBlocks blocks
        from rfl, String.append_assoc]
      simp

/-- C10: the indentation of every emitted line is the concatenation of
exactly `d` blocks, each `"    "` or `"│   "`, where `d` is the nesting
depth below the root of an entry carrying the name on the line; the depth
is recoverable as a quarter of the character length of the indentation,
and lines of the immediate children of the root carry the empty
indentation. -/
theorem c10_indentation_blocks_encode_depth :
    ∀ (children : List Entry) (inc : Bool) (maxd : Int),
      ∀ l ∈ print_directory children "" inc maxd 0,
        ∃ d e blocks, EntryAt children d e ∧ l.name = Entry.name e ∧
          List.length blocks = d ∧
          (∀ b ∈ blocks, b = "    " ∨ b = "│   ") ∧
          l.pfx = joinBlocks blocks ∧ l.pfx.length = 4 * d ∧
          (d = 0 → l.pfx = "") := by
  intro children inc maxd l hl
  obtain ⟨d, e, blocks, hat, hname, hlen, hok, hpfx⟩ :=
    print_directory_blocks children "" inc maxd 0 l hl
  rw [String.empty_append] at hpfx
  refine ⟨d, e, blocks, hat, hname, hlen, hok, hpfx, ?_, ?_⟩
  · rw [hpfx, joinBlocks_length hok, hlen]
  · intro hd
    subst hd
    rw [hpfx]
    cases blocks with
    | nil => rfl
    | cons b bs => simp at hlen

/-- C10 witness: the line printed for `c.txt` in Scenario A sits at depth
1 with a one-block indentation. -/
theorem c10_indentation_blocks_encode_depth_witness :
    ∃ d e blocks, EntryAt scenA d e ∧
      (⟨"    ", "└── ", "c.txt", ""⟩ : TreeLine).name = Entry.name e ∧
      List.length blocks = d ∧
      (∀ b ∈ blocks, b = "    " ∨ b = "│   ") ∧
      (⟨"    ", "└── ", "c.txt", ""⟩ : TreeLine).pfx = joinBlocks blocks ∧
      (⟨"    ", "└── ", "c.txt", ""⟩ : TreeLine).pfx.length = 4 * d ∧
      (d = 0 → (⟨"    ", "└── ", "c.txt", ""⟩ : TreeLine).pfx = "") :=
  c10_indentation_blocks_encode_depth scenA false 10
    ⟨"    ", "└── ", "c.txt", ""⟩
    (by simp +decide [print_directory, loopItems, childLines, hiddenFilter,
      scenA])

/- ### Hidden entries appear exactly when requested (towards C3) -/

/-- With hidden entries included, every entry within the depth budget
yields a line carrying its name and directory marker. -/
theorem hiddenFilter_true (l : List Entry) : hiddenFilter true l = l := by
  simp [hiddenFilter]

theorem appears_of_entryAt {children : List Entry} {d : Nat} {e : Entry}
    (h : EntryAt children d e) :
    ∀ (pfx : String) (curd : Nat) (maxd : Int),
      (curd : Int) + (d : Int) ≤ maxd →
      ∃ l ∈ print_directory children pfx true maxd curd,
        l.name = Entry.name e ∧
          l.suffix = (if Entry.isDir e then "/" else "") := by
  induction h with
  | here hmem =>
    intro pfx curd maxd hle
    rw [print_directory_eq_loop _ _ _ (by push_cast at hle ⊢; omega)]
    rw [hiddenFilter_true]
    obtain ⟨l, hl, hname, hsuffix, -⟩ :=
      loopItems_mem_line hmem _ 0 pfx true
    exact ⟨l, hl, hname, hsuffix⟩
  | deeper hmem hin ih =>
    intro pfx curd maxd hle
    rw [print_directory_eq_loop _ _ _ (by push_cast at hle ⊢; omega)]
    rw [hiddenFilter_true]
    obtain ⟨q, hq⟩ := loopItems_sub_incl hmem _ 0 pfx true
    obtain ⟨l, hl, hname, hsuffix⟩ :=
      ih q (curd + 1) maxd (by push_cast at hle ⊢; omega)
    exact ⟨l, hq l hl, hname, hsuffix⟩

/-- C3: a dotted-name entry within the depth budget appears in the output
iff `include_dotfiles` is true; with hidden entries excluded no emitted
line carries a dotted name at any level, and a hidden directory is never
recursed into (its contents are irrelevant to the output). -/
theorem c3_hidden_iff_included :
    (∀ (children : List Entry) (maxd : Int) (d : Nat) (e : Entry)
        (inc : Bool),
        EntryAt children d e → startsWithDot (Entry.name e) = true →
        (d : Int) ≤ maxd →
        ((∃ l ∈ print_directory children "" inc maxd 0,
            l.name = Entry.name e) ↔ inc = true)) ∧
    (∀ (children : List Entry) (pfx : String) (maxd : Int) (curd : Nat),
        ∀ l ∈ print_directory children pfx false maxd curd,
          startsWithDot l.name = false) ∧
    (∀ (l1 l2 : List Entry) (nm : String) (cs cs2 : List Entry)
        (pfx : String) (maxd : Int) (curd : Nat),
        startsWithDot nm = true →
        print_directory (l1 ++ Entry.dir nm cs :: l2) pfx false maxd curd =
          print_directory (l1 ++ Entry.dir nm cs2 :: l2) pfx false maxd
            curd) := by
  refine ⟨?_, ?_, ?_⟩
  · intro children maxd d e inc hat hdot hle
    constructor
    · intro ⟨l, hl, hname⟩
      cases inc with
      | true => rfl
      | false =>
        have hnd := print_directory_no_dotted children "" false maxd 0 rfl
          l hl
        rw [hname, hdot] at hnd
        exact Bool.noConfusion hnd
    · intro hinc
      subst hinc
      obtain ⟨l, hl, hname, -⟩ :=
        appears_of_entryAt hat "" 0 maxd (by push_cast; omega)
      exact ⟨l, hl, hname⟩
  · intro children pfx maxd curd l hl
    exact print_directory_no_dotted children pfx false maxd curd rfl l hl
  · intro l1 l2 nm cs cs2 pfx maxd curd hdot
    rcases lt_or_le maxd (curd : Int) with hgt | hle
    · rw [print_directory_eq_nil_of_gt _ _ _ hgt,
        print_directory_eq_nil_of_gt _ _ _ hgt]
    · rw [print_directory_eq_loop _ _ _ hle,
        print_directory_eq_loop _ _ _ hle]
      have hfil : hiddenFilter false (l1 ++ Entry.dir nm cs :: l2) =
          hiddenFilter false (l1 ++ Entry.dir nm cs2 :: l2) := by
        simp [hiddenFilter, List.filter_append, List.filter_cons,
          Entry.name, hdot]
      rw [hfil]

/-- C3 witness: `.hidden` at depth 0 appears when hidden entries are
included. -/
theorem c3_hidden_iff_included_witness :
    ∃ l ∈ print_directory [Entry.file ".hidden"] "" true 10 0,
      l.name = Entry.name (Entry.file ".hidden") :=
  (c3_hidden_iff_included.1 [Entry.file ".hidden"] 10 0
      (Entry.file ".hidden") true (EntryAt.here (List.mem_cons_self _ _))
      (by decide) (by decide)).mpr rfl

/- ### Connector pattern within one directory (towards C5) -/

/-- In the loop over the items of one directory, the lines carrying the
indentation of the loop itself (the direct children) use the branch
connector for every item except the last, which uses the corner
connector. -/
theorem loopItems_connectors {maxd : Int} {curd : Nat} :
    ∀ (items : List Entry) (count idx : Nat) (pfx : String) (inc : Bool),
      idx + items.length = count → items ≠ [] →
      ((loopItems items count idx pfx inc maxd curd).filter
          (fun l => l.pfx == pfx)).map (fun l => l.connector) =
        List.replicate (items.length - 1) "├── " ++ ["└── "] := by
  intro items
  induction items with
  | nil => intro count idx pfx inc hcount hne; cases hne rfl
  | cons item rest ih =>
    intro count idx pfx inc hcount hne
    rw [loopItems]
    have hchild : ∀ a ∈ childLines item (idx == count - 1) pfx inc maxd
        curd, ¬a.pfx = pfx := by
      intro a ha heq
      have hge := childLines_pfx_ge a ha
      rw [heq] at hge
      omega
    have hchildeq : List.filter (fun l => l.pfx == pfx)
        (childLines item (idx == count - 1) pfx inc maxd curd) = [] := by
      rw [List.filter_eq_nil_iff]
      intro a ha hbeq
      exact hchild a ha (by simpa using hbeq)
    cases rest with
    | nil =>
      have hlast : (idx == count - 1) = true := by
        simp only [List.length_cons, List.length_nil] at hcount
        simp only [beq_iff_eq]
        omega
      rw [hlast] at hchildeq
      simp [loopItems, hlast, hchildeq]
    | cons y rest2 =>
      have hlast : (idx == count - 1) = false := by
        simp only [List.length_cons] at hcount
        simp only [beq_eq_false_iff_ne, ne_eq]
        omega
      rw [hlast] at hchildeq
      have ih2 := ih count (idx + 1) pfx inc
        (by simp only [List.length_cons] at hcount ⊢; omega) (by simp)
      simp [hlast, hchildeq, List.filter_append, ih2, List.replicate_succ]

/-- C5: among the emitted children of any single directory (the lines
carrying the indentation of that directory itself, in listing order after the
hidden filter), every entry uses the branch connector `"├── "` except
exactly the last one, which uses the corner connector `"└── "`. -/
theorem c5_connector_correctness :
    ∀ (children : List Entry) (pfx : String) (inc : Bool) (maxd : Int)
      (curd : Nat),
      (curd : Int) ≤ maxd → hiddenFilter inc children ≠ [] →
      ((print_directory children pfx inc maxd curd).filter
          (fun l => l.pfx == pfx)).map (fun l => l.connector) =
        List.replicate ((hiddenFilter inc children).length - 1) "├── " ++
          ["└── "] := by
  intro children pfx inc maxd curd hle hne
  rw [print_directory_eq_loop _ _ _ hle]
  exact loopItems_connectors _ _ 0 pfx inc (by simp) hne

/-- C5 witness: on the Scenario A root, the connectors of the direct
children are branch, branch, corner. -/
theorem c5_connector_correctness_witness :
    ((print_directory scenA "" false 10 0).filter
        (fun l => l.pfx == "")).map (fun l => l.connector) =
      List.replicate ((hiddenFilter false scenA).length - 1) "├── " ++
        ["└── "] :=
  c5_connector_correctness scenA "" false 10 0 (by decide)
    (by simp +decide [hiddenFilter, scenA])

/- ### Mid-traversal listing failures (towards C8)

tree.py performs no exception handling inside `print_directory`: a raised
`OSError` from `os.listdir` unwinds through every active loop and
recursive call.  The traversal is re-embedded over snapshots in which a
directory listing may fail (`bdir`), with results paired with the
propagated error, lines printed before the raise being retained. -/

/-- Snapshot entry for the failure model: a file, a listable directory, or
a directory whose `os.listdir` raises the given error. -/
inductive FEntry where
  | file (nm : String)
  | dir (nm : String) (children : List FEntry)
  | bdir (nm : String) (err : String)

/-- Name of the entry. -/
def FEntry.name : FEntry → String
  | .file nm => nm
  | .dir nm _ => nm
  | .bdir nm _ => nm

/-- Embedding of `os.path.isdir` on the entry: both listable and
unlistable directories are directories. -/
def FEntry.isDir : FEntry → Bool
  | .file _ => false
  | .dir _ _ => true
  | .bdir _ _ => true

/-- The dot-file filter, as in `hiddenFilter`. -/
def hiddenFilterF (include_dotfiles : Bool) (items : List FEntry) :
    List FEntry :=
  if include_dotfiles then items
  else items.filter (fun item => !(startsWithDot item.name))

/-- The line printed for one item (tree.py lines 141-146). -/
def childLineE (item : FEntry) (is_last : Bool) (pfx : String) : TreeLine :=
  ⟨pfx, if is_last then "└── " else "├── ", FEntry.name item,
    if FEntry.isDir item then "/" else ""⟩

theorem sizeOf_filterF_le (p : FEntry → Bool) (l : List FEntry) :
    sizeOf (List.filter p l) ≤ sizeOf l := by
  induction l with
  | nil => simp [List.filter]
  | cons x xs ih =>
    simp only [List.filter]
    cases p x with
    | true => simp; omega
    | false => simp; omega

theorem sizeOf_hiddenFilterF_le (b : Bool) (l : List FEntry) :
    sizeOf (hiddenFilterF b l) ≤ sizeOf l := by
  cases b <;> simp [hiddenFilterF, sizeOf_filterF_le]

theorem one_le_sizeOf_listF (l : List FEntry) : 1 ≤ sizeOf l := by
  cases l with
  | nil => simp
  | cons x xs => simp; omega

mutual

/-- Embedding of `print_directory` over a listing attempt: the depth cutoff is checked
before `os.listdir` is consulted, so a failing listing beyond the depth
budget raises nothing; within the budget a failing listing yields the
raised error and no lines. -/
def print_directoryE (listing : Except String (List FEntry)) (pfx : String)
    (include_dotfiles : Bool) (max_depth : Int) (current_depth : Nat) :
    List TreeLine × Option String :=
  if (current_depth : Int) > max_depth then ([], none)
  else
    match listing with
    | Except.error e => ([], some e)
    | Except.ok children =>
      let items := hiddenFilterF include_dotfiles children
      loopItemsE items items.length 0 pfx include_dotfiles max_depth
        current_depth
termination_by sizeOf listing
decreasing_by
  have := sizeOf_hiddenFilterF_le include_dotfiles children
  simp
  omega

/-- The enumeration loop in the failure model: a raised error from an
subtree of an item stops the loop at that item; the remaining items are never
visited. -/
def loopItemsE : List FEntry → Nat → Nat → String → Bool → Int → Nat →
    List TreeLine × Option String
  | [], _, _, _, _, _, _ => ([], none)
  | item :: rest, count, idx, pfx, include_dotfiles, max_depth,
      current_depth =>
    let is_last := idx == count - 1
    let sub := childResultE item is_last pfx include_dotfiles max_depth
      current_depth
    match sub.2 with
    | some e => (childLineE item is_last pfx :: sub.1, some e)
    | none =>
      let tl := loopItemsE rest count (idx + 1) pfx include_dotfiles
        max_depth current_depth
      (childLineE item is_last pfx :: (sub.1 ++ tl.1), tl.2)
termination_by items _ _ _ _ _ _ => sizeOf items
decreasing_by
  all_goals (have hrest := one_le_sizeOf_listF rest; simp; try omega)

/-- Subtree result of one item in the failure model: files contribute nothing, a
directory is recursed into with its listing attempt. -/
def childResultE : FEntry → Bool → String → Bool → Int → Nat →
    List TreeLine × Option String
  | FEntry.file _, _, _, _, _, _ => ([], none)
  | FEntry.dir _ cs, is_last, pfx, include_dotfiles, max_depth,
      current_depth =>
    print_directoryE (Except.ok cs)
      (pfx ++ (if is_last then "    " else "│   ")) include_dotfiles
      max_depth (current_depth + 1)
  | FEntry.bdir _ e, is_last, pfx, include_dotfiles, max_depth,
      current_depth =>
    print_directoryE (Except.error e)
      (pfx ++ (if is_last then "    " else "│   ")) include_dotfiles
      max_depth (current_depth + 1)
termination_by item _ _ _ _ _ => sizeOf item + 1
decreasing_by
  all_goals (simp; try omega)

end

/-- Embedding of `print_tree` in the failure model: the header is printed first, then
the traversal runs until completion or until the first raised error. -/
def print_treeE (cwdBase : String) (listing : Except String (List FEntry))
    (pfx : String) (include_dotfiles : Bool) (max_depth : Int) :
    List String × Option String :=
  ((cwdBase ++ "/") ::
      (print_directoryE listing pfx include_dotfiles max_depth 0).1.map
        TreeLine.render,
    (print_directoryE listing pfx include_dotfiles max_depth 0).2)

/-- C8: a listing failure within the depth budget aborts the entire
traversal: the failing call emits nothing and yields the raised error; a
loop in which the subtree of the current item raised stops there, ignoring every
remaining sibling (no skip-and-continue at any level); the error
propagates out of `print_tree`; concretely, a permission failure at depth
1 cuts off all later entries at every level. -/
theorem c8_failure_aborts_traversal :
    (∀ (e : String) (pfx : String) (include_dotfiles : Bool)
        (max_depth : Int) (current_depth : Nat),
        (current_depth : Int) ≤ max_depth →
        print_directoryE (Except.error e) pfx include_dotfiles max_depth
          current_depth = ([], some e)) ∧
    (∀ (item : FEntry) (rest : List FEntry) (count idx : Nat)
        (pfx : String) (include_dotfiles : Bool) (max_depth : Int)
        (current_depth : Nat) (lines : List TreeLine) (e : String),
        childResultE item (idx == count - 1) pfx include_dotfiles max_depth
            current_depth = (lines, some e) →
        loopItemsE (item :: rest) count idx pfx include_dotfiles max_depth
            current_depth =
          (childLineE item (idx == count - 1) pfx :: lines, some e)) ∧
    (∀ (cwdBase : String) (listing : Except String (List FEntry))
        (pfx : String) (include_dotfiles : Bool) (max_depth : Int)
        (lines : List TreeLine) (e : String),
        print_directoryE listing pfx include_dotfiles max_depth 0 =
          (lines, some e) →
        (print_treeE cwdBase listing pfx include_dotfiles max_depth).2 =
          some e) ∧
    print_treeE "work"
        (Except.ok [FEntry.file "a.txt",
          FEntry.dir "sub" [FEntry.bdir "locked" "PermissionError",
            FEntry.file "z.txt"],
          FEntry.file "tail.txt"]) "" false 10 =
      (["work/", "├── a.txt", "├── sub/", "│   ├── locked/"],
        some "PermissionError") := by
  refine ⟨?_, ?_, ?_, ?_⟩
  · intro e pfx include_dotfiles max_depth current_depth hle
    rw [print_directoryE]
    simp [not_lt.mpr hle]
  · intro item rest count idx pfx include_dotfiles max_depth current_depth
      lines e h
    rw [loopItemsE, h]
  · intro cwdBase listing pfx include_dotfiles max_depth lines e h
    simp [print_treeE, h]
  · simp +decide [print_treeE, print_directoryE, loopItemsE, childResultE,
      childLineE, hiddenFilterF, TreeLine.render]

/-- C8 witness: concrete instances of the three quantified conjuncts. -/
theorem c8_failure_aborts_traversal_witness :
    print_directoryE (Except.error "E") "" false 0 0 = ([], some "E") ∧
    loopItemsE [FEntry.bdir "d" "E", FEntry.file "x.txt"] 2 0 "" false 10
        0 = (childLineE (FEntry.bdir "d" "E") (0 == 2 - 1) "" :: [],
          some "E") ∧
    (print_treeE "w" (Except.error "E") "" false 10).2 = some "E" :=
  ⟨c8_failure_aborts_traversal.1 "E" "" false 0 0 (by decide),
   c8_failure_aborts_traversal.2.1 (FEntry.bdir "d" "E")
     [FEntry.file "x.txt"] 2 0 "" false 10 0 [] "E"
     (by simp +decide [childResultE, print_directoryE]),
   c8_failure_aborts_traversal.2.2.1 "w" (Except.error "E") "" false 10 []
     "E" (c8_failure_aborts_traversal.1 "E" "" false 10 0 (by decide))⟩

/- ### Root-path validation and the command line (towards C7) -/

/-- Outcome of `os.path.isdir` in `directory_sanitizer` (tree.py lines
58-73): a boolean result, or one of the exceptions the source catches. -/
inductive StatResult where
  | isDirTrue
  | isDirFalse
  | fnfError
  | permError
  | osError (msg : String)
deriving DecidableEq

/-- A single-quote character, written by code point. -/
def apos : String := String.singleton (Char.ofNat 39)

/-- Embedding of `directory_sanitizer` (tree.py lines 48-73): returns
whether the path validated, together with the diagnostic lines printed. -/
def directory_sanitizer (path : String) (st : StatResult) :
    Bool × List String :=
  match st with
  | .isDirTrue => (true, [])
  | .isDirFalse =>
    (false, ["error: the directory " ++ apos ++ path ++ apos ++
      " does not exist."])
  | .fnfError =>
    (false, ["error: the directory " ++ apos ++ path ++ apos ++
      " does not exist."])
  | .permError =>
    (false, ["error: you do not have the necessary permissions to access "
      ++ apos ++ path ++ apos ++ "."])
  | .osError e => (false, ["error checking directory:\n" ++ e])

/-- The ambient process state `main` consults: base name and listing of
the working directory, and stat outcome and listing of each path. -/
structure Env where
  cwdBase : String
  cwdChildren : List Entry
  stat : String → StatResult
  childrenOf : String → List Entry

/-- Embedding of `main` (tree.py lines 17-46): `argv` is the full
`sys.argv` including the program name; the result is every line printed.
The `-a`/`--all` flag is recognized in the last argument. -/
def mainRun (env : Env) (argv : List String) : List String :=
  let args_amount := argv.length
  let is_all :=
    match argv.getLast? with
    | some a => a == "-a" || a == "--all"
    | none => false
  if args_amount == 1 then
    print_tree env.cwdBase env.cwdChildren "" false 10
  else if args_amount == 2 && is_all then
    print_tree env.cwdBase env.cwdChildren "" true 10
  else if args_amount == 2 && !is_all then
    let d := argv.getD 1 ""
    let s := directory_sanitizer d (env.stat d)
    s.2 ++
      (if s.1 then print_tree env.cwdBase (env.childrenOf d) "" false 10
       else [])
  else if args_amount == 3 && is_all then
    let d := argv.getD 1 ""
    let s := directory_sanitizer d (env.stat d)
    s.2 ++
      (if s.1 then print_tree env.cwdBase (env.childrenOf d) "" true 10
       else [])
  else
    ["usage: tree || tree <DIR> [-a | --all]"]

/-- C7: when the supplied root fails validation (`os.path.isdir` false:
missing or not a directory), the program prints exactly the one-line
diagnostic, which contains the path, and produces no tree lines, not even
the header; when validation succeeds, the whole output is the traversal,
so validation happens once, before any traversal output. -/
theorem c7_invalid_root_diagnostic_only :
    (∀ (env : Env) (prog p : String),
        env.stat p = StatResult.isDirFalse → (p == "-a") = false →
        (p == "--all") = false →
        mainRun env [prog, p] =
          ["error: the directory " ++ apos ++ p ++ apos ++
            " does not exist."]) ∧
    (∀ (p : String), ∃ a b : String,
        "error: the directory " ++ apos ++ p ++ apos ++
          " does not exist." = a ++ p ++ b) ∧
    (∀ (env : Env) (prog p : String),
        env.stat p = StatResult.isDirTrue → (p == "-a") = false →
        (p == "--all") = false →
        mainRun env [prog, p] =
          print_tree env.cwdBase (env.childrenOf p) "" false 10) := by
  refine ⟨?_, ?_, ?_⟩
  · intro env prog p hstat hpa hpall
    simp [mainRun, directory_sanitizer, hstat, hpa, hpall]
  · intro p
    refine ⟨"error: the directory " ++ apos,
      apos ++ " does not exist.", ?_⟩
    simp [String.append_assoc]
  · intro env prog p hstat hpa hpall
    simp [mainRun, directory_sanitizer, hstat, hpa, hpall]

/-- C7 witness: a concrete environment in which `/does/not/exist` fails
validation, so the program prints only the diagnostic containing the
path. -/
theorem c7_invalid_root_diagnostic_only_witness :
    mainRun ⟨"w", [], fun _ => StatResult.isDirFalse, fun _ => []⟩
        ["tree.py", "/does/not/exist"] =
      ["error: the directory " ++ apos ++ "/does/not/exist" ++ apos ++
        " does not exist."] ∧
    (∃ a b : String,
      "error: the directory " ++ apos ++ "/does/not/exist" ++ apos ++
        " does not exist." = a ++ "/does/not/exist" ++ b) :=
  ⟨c7_invalid_root_diagnostic_only.1
    ⟨"w", [], fun _ => StatResult.isDirFalse, fun _ => []⟩ "tree.py"
    "/does/not/exist" rfl (by decide) (by decide),
   c7_invalid_root_diagnostic_only.2.1 "/does/not/exist"⟩
